import Mathlib

/-!
Verification of the SIA memory subsystem (`src/memory_module.py`).

This file gives a shallow embedding of `MemoryModule` and proves or refutes
the specification claims about it.  Conventions:

* A `MemoryRecord` mirrors the Python dict `{"text": ..., "type": ..., "meta": ...}`;
  `meta` is an opaque key-value mapping, modelled as an association list.
* Numeric scores and embedding-vector components are modelled as exact
  rationals (`Frac`: integer numerator over positive natural denominator,
  not normalized); float rounding is not modelled.  All arithmetic used by
  the source (add, subtract, multiply, mean, negate, compare) is defined
  structurally so concrete states evaluate inside the kernel.
* The embedding provider `_embed` is a deterministic pure function of the
  text (the source seeds a PRNG from a hash of the text), so operations are
  parameterised over an arbitrary `embed : String → Vec`.
* The FAISS `IndexFlatL2` is the list of added vectors in position order.
  `search` returns the `k` pairs (id, distance) in ascending distance order
  (ties in id order), padded with `(-1, FLT_MAX)` rows when `k` exceeds the
  number of stored vectors, exactly as FAISS does; `remove_ids` on a flat
  index compacts the storage, shifting later ids down by one, which is
  `List.eraseIdx`.
* Fernet authenticated encryption is modelled abstractly: a ciphertext
  carries the key it was produced under, the serialized document, and a
  validity bit; decryption succeeds exactly when the bit is set and the keys
  agree (wrong key and a corrupted/tampered file both decrypt to `none`,
  matching `InvalidToken`).
* The persisted file is the `Disk : Option Cipher`; the plaintext document
  `{"memories": [...]}` round-trips through JSON exactly for this record
  shape, so the payload is simply the record list.
* The configuration is the FAISS backend (`VECTOR_DB = "faiss"`), the
  default and the configuration the module-level claims refer to.
* Python exceptions are modelled with `Option`/`Except` where the source
  raises or catches; Python negative list indexing is `pyGet?`; Python
  `str.lower`/`str.split()` are `pyLower`/`wordsOf`.
-/

deriving instance DecidableEq for Except

namespace SIA

/-! ## Exact fraction arithmetic (stand-in for float scores) -/

/-- An exact rational: integer numerator over a positive natural
denominator, kept unnormalized so that all operations are structural. -/
structure Frac where
  num : Int
  den : Nat
  denPos : 0 < den

instance : DecidableEq Frac := fun x y =>
  if h1 : x.num = y.num ∧ x.den = y.den then
    .isTrue (by cases x; cases y; simp_all)
  else
    .isFalse (by intro h; cases h; simp_all)

instance (n : Nat) : OfNat Frac n := ⟨⟨(n : Int), 1, Nat.one_pos⟩⟩

def Frac.neg (x : Frac) : Frac := ⟨-x.num, x.den, x.denPos⟩

instance : Neg Frac := ⟨Frac.neg⟩

def Frac.add (x y : Frac) : Frac :=
  ⟨x.num * (y.den : Int) + y.num * (x.den : Int), x.den * y.den,
    Nat.mul_pos x.denPos y.denPos⟩

instance : Add Frac := ⟨Frac.add⟩

def Frac.sub (x y : Frac) : Frac :=
  ⟨x.num * (y.den : Int) - y.num * (x.den : Int), x.den * y.den,
    Nat.mul_pos x.denPos y.denPos⟩

instance : Sub Frac := ⟨Frac.sub⟩

def Frac.mul (x y : Frac) : Frac :=
  ⟨x.num * y.num, x.den * y.den, Nat.mul_pos x.denPos y.denPos⟩

instance : Mul Frac := ⟨Frac.mul⟩

/-- Division by a positive natural (used only for the centroid mean). -/
def Frac.divNat (x : Frac) (n : Nat) (h : 0 < n) : Frac :=
  ⟨x.num, x.den * n, Nat.mul_pos x.denPos h⟩

def Frac.le (x y : Frac) : Prop := x.num * (y.den : Int) ≤ y.num * (x.den : Int)

instance : LE Frac := ⟨Frac.le⟩

def Frac.lt (x y : Frac) : Prop := x.num * (y.den : Int) < y.num * (x.den : Int)

instance : LT Frac := ⟨Frac.lt⟩

instance (x y : Frac) : Decidable (x ≤ y) :=
  inferInstanceAs (Decidable (x.num * (y.den : Int) ≤ y.num * (x.den : Int)))

instance (x y : Frac) : Decidable (x < y) :=
  inferInstanceAs (Decidable (x.num * (y.den : Int) < y.num * (x.den : Int)))

/-- Python `max(a, b)`: returns `b` exactly when `a < b`. -/
def Frac.fmax (x y : Frac) : Frac := if x < y then y else x

def natToFrac (n : Nat) : Frac := ⟨(n : Int), 1, Nat.one_pos⟩

theorem Frac.le_total (x y : Frac) : x ≤ y ∨ y ≤ x :=
  Int.le_total (x.num * (y.den : Int)) (y.num * (x.den : Int))

theorem Frac.le_refl (x : Frac) : x ≤ x := Int.le_refl _

theorem Frac.le_trans {x y z : Frac} (h1 : x ≤ y) (h2 : y ≤ z) : x ≤ z := by
  change x.num * (y.den : Int) ≤ y.num * (x.den : Int) at h1
  change y.num * (z.den : Int) ≤ z.num * (y.den : Int) at h2
  change x.num * (z.den : Int) ≤ z.num * (x.den : Int)
  have hy : (0 : Int) < (y.den : Int) := by exact_mod_cast y.denPos
  have h1' := mul_le_mul_of_nonneg_right h1 (le_of_lt (by exact_mod_cast z.denPos : (0:Int) < (z.den : Int)))
  have h2' := mul_le_mul_of_nonneg_right h2 (le_of_lt (by exact_mod_cast x.denPos : (0:Int) < (x.den : Int)))
  have hchain : x.num * (y.den : Int) * (z.den : Int) ≤ z.num * (y.den : Int) * (x.den : Int) := by
    calc x.num * (y.den : Int) * (z.den : Int)
        ≤ y.num * (x.den : Int) * (z.den : Int) := h1'
      _ = y.num * (z.den : Int) * (x.den : Int) := by ring
      _ ≤ z.num * (y.den : Int) * (x.den : Int) := h2'
  have : x.num * (z.den : Int) * (y.den : Int) ≤ z.num * (x.den : Int) * (y.den : Int) := by
    calc x.num * (z.den : Int) * (y.den : Int)
        = x.num * (y.den : Int) * (z.den : Int) := by ring
      _ ≤ z.num * (y.den : Int) * (x.den : Int) := hchain
      _ = z.num * (x.den : Int) * (y.den : Int) := by ring
  exact le_of_mul_le_mul_right this hy

/-! ## Data model -/

/-- One memory: the Python dict `{"text": ..., "type": ..., "meta": ...}`. -/
structure MemoryRecord where
  text : String
  type : String
  meta : List (String × String)
deriving DecidableEq

/-- An embedding vector (`np.ndarray` of floats), modelled exactly. -/
abbrev Vec := List Frac

/-- A Fernet token: records the key it was encrypted under, the serialized
document, and whether the token is intact.  `valid := false` models a
corrupted or tampered ciphertext. -/
structure Cipher where
  key : Nat
  payload : List MemoryRecord
  valid : Bool
deriving DecidableEq

/-- `Fernet.encrypt` over the serialized `{"memories": [...]}` document. -/
def fernetEncrypt (key : Nat) (payload : List MemoryRecord) : Cipher :=
  ⟨key, payload, true⟩

/-- `Fernet.decrypt`: succeeds iff the token is intact and the key matches;
otherwise raises `InvalidToken`, modelled as `none`. -/
def fernetDecrypt (key : Nat) (c : Cipher) : Option (List MemoryRecord) :=
  if c.valid ∧ c.key = key then some c.payload else none

/-- The persisted storage file at `storage_path`: absent, or one ciphertext. -/
abbrev Disk := Option Cipher

/-- The in-memory state of `MemoryModule` (FAISS configuration):
`embedding_dim`, `self.memories`, the `IndexFlatL2` contents in position
order, the configured Fernet key, and the audit trail. -/
structure MemoryModule where
  embeddingDim : Nat
  memories : List MemoryRecord
  index : List Vec
  storageKey : Nat
  audit : List String
deriving DecidableEq

/-! ## Python and FAISS primitives -/

/-- Python list indexing: negative indices count from the end; an index out
of range raises `IndexError`, modelled as `none`. -/
def pyGet? (l : List α) (i : Int) : Option α :=
  if 0 ≤ i then l.get? i.toNat
  else if i.natAbs ≤ l.length then l.get? (l.length - i.natAbs)
  else none

/-- ASCII lower-casing of one character (`str.lower` on the characters the
configuration strings use). -/
def charLower (c : Char) : Char :=
  if 'A' ≤ c ∧ c ≤ 'Z' then Char.ofNat (c.toNat + 32) else c

/-- Python `str.lower()`. -/
def pyLower (s : String) : String := String.mk (s.data.map charLower)

def splitWsAux : List Char → List Char → List (List Char)
  | [], acc => [acc.reverse]
  | c :: cs, acc =>
    if c = ' ' ∨ c = '\t' ∨ c = '\n' ∨ c = '\r' then
      acc.reverse :: splitWsAux cs []
    else splitWsAux cs (c :: acc)

/-- Python `text.lower().split()`: lower-case, split on whitespace runs,
drop empty tokens. -/
def wordsOf (s : String) : List String :=
  ((splitWsAux (pyLower s).data []).map String.mk).filter (fun w => w ≠ "")

/-- `len(set(query_words) & set(text_words))`: the number of distinct query
words that occur among the text words. -/
def overlapCount (q t : String) : Nat :=
  ((wordsOf q).eraseDups.filter (fun w => (wordsOf t).contains w)).length

/-- Stable insertion: place `a` before the first element `x` with `le a x`.
With a reflexive total `le` this is the stable sort order of Python
`sorted`. -/
def insertBy (le : α → α → Bool) (a : α) : List α → List α
  | [] => [a]
  | x :: xs => if le a x then a :: x :: xs else x :: insertBy le a xs

/-- Stable sort (insertion sort), matching Python `sorted` for a total
preorder `le`. -/
def sortBy (le : α → α → Bool) : List α → List α
  | [] => []
  | x :: xs => insertBy le x (sortBy le xs)

/-- `FLT_MAX`, the distance FAISS reports for padding rows. -/
def fltMax : Frac := ⟨340282346638528859811704183484516925440, 1, Nat.one_pos⟩

/-- Squared L2 distance between two vectors. -/
def sqDist (a b : Vec) : Frac :=
  (List.zipWith (fun x y => (x - y) * (x - y)) a b).foldr (· + ·) 0

/-- Ascending comparison on (id, distance) rows; ties keep id order because
the row list is built in id order and the sort is stable. -/
def distLe (a b : Int × Frac) : Bool := decide (a.2 ≤ b.2)

/-- `IndexFlatL2.search(q, k)`: the `k` nearest stored vectors as (id,
squared distance) rows in ascending distance order, padded with
`(-1, FLT_MAX)` rows when `k` exceeds the number of stored vectors. -/
def indexSearch (index : List Vec) (q : Vec) (k : Nat) : List (Int × Frac) :=
  let scored : List (Int × Frac) :=
    index.enum.map (fun p => ((p.1 : Int), sqDist q p.2))
  (sortBy distLe scored).take k ++
    List.replicate (k - index.length) (-1, fltMax)

/-- Componentwise vector sum (`numpy` broadcasting over equal shapes). -/
def vecAdd (a b : Vec) : Vec := List.zipWith (· + ·) a b

/-- `np.mean(vectors, axis=0)`: the centroid of a non-empty list. -/
def meanVec (vs : List Vec) : Vec :=
  match vs with
  | [] => []
  | v :: rest =>
      (rest.foldl vecAdd v).map
        (fun x => Frac.divNat x (rest.length + 1) (Nat.succ_pos rest.length))

/-! ## MemoryModule state and persistence -/

/-- Modelled from the spec: the helper `_audit_log` is called by
`save_to_disk`, `load_from_disk` and `backup_memories` in
`src/memory_module.py`, but its definition is not among the provided
sources.  Per the Audit Trail component of the spec it appends an entry
recording the operation and its outcome to an append-only log and always
succeeds; an entry is modelled by its event name. -/
def auditLog (s : MemoryModule) (event : String) : MemoryModule :=
  { s with audit := s.audit ++ [event] }

/-- `MemoryModule.save_to_disk`: serialize all memories, encrypt under the
configured key, write the file, and audit the save.  Disk-write and
encryption failures are caught inside the method and never propagate. -/
def saveToDisk (s : MemoryModule) (_d : Disk) : MemoryModule × Disk :=
  let c := fernetEncrypt s.storageKey s.memories
  (auditLog s "save_to_disk", some c)

/-- `MemoryModule.load_from_disk`: if the file exists, read and decrypt it.
On success the in-memory store is replaced by the decrypted record list and
the load is audited; on `InvalidToken` (wrong key or corrupted file) the
store is reset to empty and the failure is audited.  All failures are
caught, so the method always returns normally. -/
def loadFromDisk (s : MemoryModule) (d : Disk) : MemoryModule :=
  match d with
  | none => s
  | some c =>
    match fernetDecrypt s.storageKey c with
    | some payload =>
        auditLog { s with memories := payload } "load_from_disk"
    | none =>
        auditLog { s with memories := [] } "load_from_disk_error"

/-- `MemoryModule.store_memory` (FAISS branch).  The source embeds the text,
adds the vector to the index, appends the record, saves, and returns the new
position; if the embedding or index-add step throws (`addOk = false`), the
`except` clause returns the sentinel `-1` with no mutation performed.
`save_to_disk` catches its own failures, so it cannot make the call fail. -/
def storeMemory (embed : String → Vec) (addOk : Bool) (s : MemoryModule)
    (d : Disk) (text : String) (meta : List (String × String))
    (mtype : String) : MemoryModule × Disk × Int :=
  if addOk then
    let embedding := embed text
    let s1 := { s with index := s.index ++ [embedding] }
    let mem : MemoryRecord := ⟨text, mtype, meta⟩
    let s2 := { s1 with memories := s1.memories ++ [mem] }
    let (s3, d1) := saveToDisk s2 d
    (s3, d1, (s2.memories.length : Int) - 1)
  else
    (s, d, -1)

/-- `MemoryModule.inject_memory`: append the record without touching the
embedding or the index, persist, and return the new position. -/
def injectMemory (s : MemoryModule) (d : Disk) (text : String)
    (meta : List (String × String)) (mtype : String) :
    MemoryModule × Disk × Int :=
  let mem : MemoryRecord := ⟨text, mtype, meta⟩
  let s1 := { s with memories := s.memories ++ [mem] }
  let (s2, d1) := saveToDisk s1 d
  (s2, d1, (s1.memories.length : Int) - 1)

/-- The state `__init__` builds before calling `load_from_disk`. -/
def freshModule (key : Nat) (dim : Nat) : MemoryModule :=
  ⟨dim, [], [], key, []⟩

/-- The fatal construction errors of `MemoryModule.__init__`. -/
inductive InitError where
  | missingKey
  | invalidKey
  | faissMissing
  | pineconeMissing
  | pineconeInitFailed
deriving DecidableEq

/-- `MemoryModule.__init__`: requires a configured, well-formed Fernet key;
then branches on `VECTOR_DB.lower()`.  `"faiss"` and `"pinecone"` raise if
the corresponding library is unavailable (or remote initialization fails);
any other backend string falls through both branches and the constructor
proceeds with no vector index.  Construction ends by loading from disk. -/
def initModule (encKey : Option Nat) (keyValid : Bool) (vectorDb : String)
    (faissInstalled pineconeInstalled pineconeInitOk : Bool)
    (dim : Nat) (d : Disk) : Except InitError MemoryModule :=
  match encKey with
  | none => .error .missingKey
  | some key =>
    if keyValid = false then .error .invalidKey
    else
      let db := pyLower vectorDb
      if db == "faiss" then
        if faissInstalled then .ok (loadFromDisk (freshModule key dim) d)
        else .error .faissMissing
      else if db == "pinecone" then
        if pineconeInstalled then
          if pineconeInitOk then .ok (loadFromDisk (freshModule key dim) d)
          else .error .pineconeInitFailed
        else .error .pineconeMissing
      else .ok (loadFromDisk (freshModule key dim) d)

/-- A call to one of the two record-creating public operations. -/
inductive MemOp where
  | store (addOk : Bool) (text : String) (meta : List (String × String))
      (mtype : String)
  | inject (text : String) (meta : List (String × String)) (mtype : String)

/-- Apply one operation, threading the module state and the storage file. -/
def applyOp (embed : String → Vec) (sd : MemoryModule × Disk) :
    MemOp → MemoryModule × Disk
  | .store ok text meta mtype =>
      let r := storeMemory embed ok sd.1 sd.2 text meta mtype
      (r.1, r.2.1)
  | .inject text meta mtype =>
      let r := injectMemory sd.1 sd.2 text meta mtype
      (r.1, r.2.1)

/-- Run a sequence of `store_memory`/`inject_memory` calls. -/
def runOps (embed : String → Vec) : List MemOp → MemoryModule × Disk →
    MemoryModule × Disk
  | [], sd => sd
  | op :: rest, sd => runOps embed rest (applyOp embed sd op)

/-! ## Retrieval -/

/-- One row of a `retrieve_memory` result:
`{"text": ..., "type": ..., "meta": ..., "score": ...}`. -/
structure ResultEntry where
  text : String
  type : String
  meta : List (String × String)
  score : Frac
deriving DecidableEq

/-- `memory_type is None or m.get("type", "semantic") == memory_type`. -/
def typeMatches (mtype : Option String) (m : MemoryRecord) : Bool :=
  match mtype with
  | none => true
  | some t => m.type == t

/-- The type-filtered store with original positions:
`[(i, m) for i, m in enumerate(self.memories) if ...]`. -/
def filteredMems (s : MemoryModule) (mtype : Option String) :
    List (Nat × MemoryRecord) :=
  s.memories.enum.filter (fun p => typeMatches mtype p.2)

/-- `idx_map.get(idx, idx)`: translate a search hit of the (possibly
temporary) index back to an original store position, defaulting to the raw
id when it is not a key of the map. -/
def idxMapGet (filtered : List (Nat × MemoryRecord)) (idx : Int) : Int :=
  if 0 ≤ idx then
    match filtered.get? idx.toNat with
    | some p => (p.1 : Int)
    | none => idx
  else idx

/-- Turn search rows into result entries.  Each row id is mapped through
`idx_map` and looked up in `self.memories`; an out-of-range lookup raises
`IndexError`, which the enclosing `try` of `retrieve_memory` turns into an
empty overall result (`none` here). -/
def vectorEntries (s : MemoryModule) (filtered : List (Nat × MemoryRecord)) :
    List (Int × Frac) → Option (List ResultEntry)
  | [] => some []
  | r :: rs =>
    match pyGet? s.memories (idxMapGet filtered r.1) with
    | none => none
    | some m =>
      match vectorEntries s filtered rs with
      | none => none
      | some es => some (⟨m.text, m.type, m.meta, -r.2⟩ :: es)

/-- The vector stage of `retrieve_memory` (FAISS branch): when the type
filter removed anything, build a disposable index by re-embedding the
filtered texts; otherwise search the primary index.  Scores are negated
distances. -/
def vectorStage? (embed : String → Vec) (s : MemoryModule) (query : String)
    (topK : Nat) (mtype : Option String) : Option (List ResultEntry) :=
  let filtered := filteredMems s mtype
  let qv := embed query
  let k := min topK filtered.length
  let searchRes :=
    if filtered.length ≠ s.memories.length then
      indexSearch (filtered.map (fun p => embed p.2.text)) qv k
    else
      indexSearch s.index qv k
  vectorEntries s filtered searchRes

/-- The lexical stage: every filtered record with a positive overlap with
the query contributes an entry scored `overlap + 0.01`. -/
def keywordStage (s : MemoryModule) (query : String) (mtype : Option String) :
    List ResultEntry :=
  (filteredMems s mtype).filterMap (fun p =>
    if 0 < overlapCount query p.2.text then
      some ⟨p.2.text, p.2.type, p.2.meta,
        natToFrac (overlapCount query p.2.text) + ⟨1, 100, Nat.succ_pos 99⟩⟩
    else none)

/-- `all_results[text] = r`: Python dict assignment — overwrite in place if
the key exists (keeping its insertion position), else append. -/
def dictSet (d : List (String × ResultEntry)) (k : String) (v : ResultEntry) :
    List (String × ResultEntry) :=
  if d.any (fun p => p.1 == k) then
    d.map (fun p => if p.1 == k then (p.1, v) else p)
  else d ++ [(k, v)]

/-- The merge step for one lexical entry: take the max score if the text is
already present, else append the entry. -/
def dictMaxScore (d : List (String × ResultEntry)) (e : ResultEntry) :
    List (String × ResultEntry) :=
  if d.any (fun p => p.1 == e.text) then
    d.map (fun p =>
      if p.1 == e.text then (p.1, { p.2 with score := Frac.fmax p.2.score e.score })
      else p)
  else d ++ [(e.text, e)]

/-- The merged dict: key the vector results by text (dict comprehension),
then fold in the lexical results preferring the higher score. -/
def mergeDict (vres lres : List ResultEntry) : List (String × ResultEntry) :=
  lres.foldl dictMaxScore (vres.foldl (fun d r => dictSet d r.text r) [])

/-- The hybrid merge: the values of the merged dict in insertion order. -/
def mergeByText (vres lres : List ResultEntry) : List ResultEntry :=
  (mergeDict vres lres).map (fun p => p.2)

/-- Descending-score comparison used by `sorted(..., reverse=True)`. -/
def scoreGe (a b : ResultEntry) : Bool := decide (b.score ≤ a.score)

/-- Sort by score descending (stably) and keep the first `top_k`. -/
def rankResults (merged : List ResultEntry) (topK : Nat) : List ResultEntry :=
  (sortBy scoreGe merged).take topK

/-- `MemoryModule.retrieve_memory` (FAISS branch). -/
def retrieveMemory (embed : String → Vec) (s : MemoryModule) (query : String)
    (topK : Nat) (mtype : Option String) (hybrid : Bool) : List ResultEntry :=
  if s.memories.length = 0 then []
  else if (filteredMems s mtype).length = 0 then []
  else
    match vectorStage? embed s query topK mtype with
    | none => []
    | some results =>
      if hybrid then
        rankResults (mergeByText results (keywordStage s query mtype)) topK
      else
        results.take topK

/-! ## Pruning -/

/-- `MemoryModule.prune_memories` (FAISS branch).  The source reconstructs
all indexed vectors, takes the centroid of the type-filtered subset,
searches the full index for `len(self.memories)` neighbours of the
centroid, and then — enumerating the *distance-sorted* row list, not the
returned ids — schedules position `i` for removal when `-D[0][i]` is below
the threshold and record `i` matches the filter.  Removal proceeds in
descending position order on both structures, then saves.  `reconstruct_n`
raises when the index holds fewer vectors than there are memories (no
`try` protects this method), modelled as `.error`.

The positions `prune_memories` schedules for removal: enumerating the
*distance-sorted* row list of the centroid search (the source discards the
returned ids), keep rank `i` when `-D[0][i]` is below the threshold and
record `i` matches the filter. -/
def pruneTargets (s : MemoryModule) (threshold : Frac)
    (mtype : Option String) : List Nat :=
  let allEmb := s.index.take s.memories.length
  let chosen := ((filteredMems s mtype).map (fun p => p.1)).filterMap
    (fun i => allEmb.get? i)
  let centroid := meanVec chosen
  let dists := (indexSearch s.index centroid s.memories.length).map
    (fun r => r.2)
  (dists.enum.filter (fun p =>
    decide (-p.2 < threshold) &&
      (match s.memories.get? p.1 with
       | some m => typeMatches mtype m
       | none => false))).map (fun p => p.1)

/-- The main path of `prune_memories`: delete the scheduled positions from
the store and the index in descending order, save, and return the count. -/
def pruneCore (s : MemoryModule) (d : Disk) (threshold : Frac)
    (mtype : Option String) : Except String (MemoryModule × Disk × Nat) :=
  let toPrune := pruneTargets s threshold mtype
  let s1 := (sortBy (fun a b => Nat.ble b a) toPrune).foldl
    (fun st i =>
      { st with memories := st.memories.eraseIdx i,
                index := st.index.eraseIdx i }) s
  let (s2, d2) := saveToDisk s1 d
  .ok (s2, d2, toPrune.length)

def pruneMemories (s : MemoryModule) (d : Disk) (threshold : Frac)
    (mtype : Option String) : Except String (MemoryModule × Disk × Nat) :=
  if s.memories.length = 0 then .ok (s, d, 0)
  else if ((filteredMems s mtype).map (fun p => p.1)).length = 0 then
    .ok (s, d, 0)
  else if s.memories.length ≤ s.index.length then
    pruneCore s d threshold mtype
  else .error "reconstruct_n out of range"

/-- A one-dimensional stand-in embedding provider used for witnesses. -/
def embedLen (s : String) : Vec := [natToFrac s.length]

/-- The index is aligned with the store: one vector per record, and the
vector at position `p` is the embedding of the text of record `p`. -/
def alignedIndex (embed : String → Vec) (s : MemoryModule) : Prop :=
  s.index = s.memories.map (fun m => embed m.text)

instance (embed : String → Vec) (s : MemoryModule) :
    Decidable (alignedIndex embed s) :=
  inferInstanceAs (Decidable (s.index = _))

/-- Three memories stored with embeddings `[14]`, `[0]`, `[1]`: the failing
input for C4.  The centroid is `[5]`, so the centroid-similarity scores by
position are `-81`, `-25`, `-16`. -/
def prState : MemoryModule × Disk :=
  runOps (fun s => if s = "x" then [14] else if s = "y" then [0] else [1])
    [.store true "x" [] "semantic", .store true "y" [] "semantic",
     .store true "z" [] "semantic"] (freshModule 0 384, none)

/-- `"alpha"` stored (embedded and indexed), then `"beta"` injected
(appended with no vector): the index holds one vector for two records. -/
def sInj : MemoryModule :=
  (injectMemory
    (storeMemory embedLen true (freshModule 0 384) none "alpha" [] "semantic").1
    (some (fernetEncrypt 0 [⟨"alpha", "semantic", []⟩])) "beta" [] "episodic").1

/-- Two stored records used by the C8 witness: texts `"aa"` and `"bbb"`
with one-dimensional embeddings `[2]` and `[3]`. -/
def sC8 : MemoryModule :=
  (storeMemory embedLen true
    (storeMemory embedLen true (freshModule 0 384) none "aa" [] "semantic").1
    none "bbb" [] "semantic").1

/-- The vector stage of the C8 witness retrieval (query `"aa x"`). -/
def vres8 : List ResultEntry :=
  [⟨"bbb", "semantic", [], ⟨-1, 1, Nat.one_pos⟩⟩,
   ⟨"aa", "semantic", [], ⟨-4, 1, Nat.one_pos⟩⟩]

/-- The lexical stage of the C8 witness retrieval. -/
def lres8 : List ResultEntry :=
  [⟨"aa", "semantic", [], ⟨101, 100, Nat.succ_pos 99⟩⟩]

/-! ## Basic lemmas -/

theorem saveToDisk_memories (s : MemoryModule) (d : Disk) :
    (saveToDisk s d).1.memories = s.memories := rfl

theorem saveToDisk_storageKey (s : MemoryModule) (d : Disk) :
    (saveToDisk s d).1.storageKey = s.storageKey := rfl

theorem applyOp_storageKey (embed : String → Vec) (sd : MemoryModule × Disk)
    (op : MemOp) : (applyOp embed sd op).1.storageKey = sd.1.storageKey := by
  cases op with
  | store ok text meta mtype => cases ok <;> rfl
  | inject text meta mtype => rfl

theorem runOps_storageKey (embed : String → Vec) (ops : List MemOp)
    (sd : MemoryModule × Disk) :
    (runOps embed ops sd).1.storageKey = sd.1.storageKey := by
  induction ops generalizing sd with
  | nil => rfl
  | cons op rest ih =>
      rw [runOps, ih, applyOp_storageKey]

/-! ## Claims C1, C2, C3, C6 -/

/-- Claim C1: if the persisted file exists but its bytes do not decrypt
under the configured key (wrong key or corrupted ciphertext), then
`load_from_disk()` returns normally with an empty memory store and appends
an audit entry recording the failure. -/
theorem claim1_decrypt_failure_fallback (s : MemoryModule) (c : Cipher)
    (h : fernetDecrypt s.storageKey c = none) :
    loadFromDisk s (some c) =
      { s with memories := [],
               audit := s.audit ++ ["load_from_disk_error"] } := by
  rw [loadFromDisk, h]
  rfl

/-- Witness for C1 at a concrete corrupted file: a token produced under key
`1` does not decrypt under configured key `0`, and loading it empties the
store and audits the failure. -/
theorem claim1_witness :
    fernetDecrypt (freshModule 0 384).storageKey ⟨1, [], true⟩ = none ∧
    loadFromDisk (freshModule 0 384) (some ⟨1, [], true⟩) =
      { (freshModule 0 384) with
        memories := [],
        audit := ["load_from_disk_error"] } :=
  ⟨by decide,
   claim1_decrypt_failure_fallback (freshModule 0 384) ⟨1, [], true⟩
     (by decide)⟩

/-- Claim C2: when the embedding/index-add step throws, `store_memory`
returns the sentinel `-1` and performs no mutation at all (state and disk
unchanged); when it succeeds, the returned value is never `-1` and is the
position at which the new record was appended, namely the previous length
of the store. -/
theorem claim2_store_failure_atomic (embed : String → Vec) (s : MemoryModule)
    (d : Disk) (text : String) (meta : List (String × String))
    (mtype : String) :
    storeMemory embed false s d text meta mtype = (s, d, -1) ∧
    (storeMemory embed true s d text meta mtype).2.2 =
      (s.memories.length : Int) ∧
    (storeMemory embed true s d text meta mtype).1.memories =
      s.memories ++ [⟨text, mtype, meta⟩] ∧
    (storeMemory embed true s d text meta mtype).2.2 ≠ -1 := by
  refine ⟨rfl, ?_, ?_, ?_⟩
  · simp [storeMemory, saveToDisk, auditLog]
  · simp [storeMemory, saveToDisk, auditLog]
  · simp only [storeMemory, saveToDisk, auditLog, if_true]
    intro hcontra
    simp only [List.length_append, List.length_cons, List.length_nil] at hcontra
    omega

/-- Claim C3: for every sequence of `store_memory`/`inject_memory` calls
starting from a fresh module, saving to disk and then loading from the same
file in a fresh module instance (same path, same configured key) restores
the record list field-for-field. -/
theorem claim3_round_trip (embed : String → Vec) (key dim : Nat)
    (ops : List MemOp) :
    (loadFromDisk (freshModule key dim)
        (saveToDisk (runOps embed ops (freshModule key dim, none)).1
          (runOps embed ops (freshModule key dim, none)).2).2).memories =
      (runOps embed ops (freshModule key dim, none)).1.memories := by
  have hk : (runOps embed ops (freshModule key dim, none)).1.storageKey = key :=
    runOps_storageKey embed ops (freshModule key dim, none)
  rw [saveToDisk]
  rw [hk]
  simp [loadFromDisk, fernetDecrypt, fernetEncrypt, freshModule, auditLog]

/-- Claim C6: `inject_memory` always succeeds: it appends the record,
leaves the vector index untouched (no embedding computed), persists the
updated store encrypted to disk, and returns the position of the injected
record. -/
theorem claim6_inject_always_succeeds (s : MemoryModule) (d : Disk)
    (text : String) (meta : List (String × String)) (mtype : String) :
    (injectMemory s d text meta mtype).2.2 = (s.memories.length : Int) ∧
    (injectMemory s d text meta mtype).1.memories =
      s.memories ++ [⟨text, mtype, meta⟩] ∧
    (injectMemory s d text meta mtype).1.index = s.index ∧
    (injectMemory s d text meta mtype).2.1 =
      some (fernetEncrypt s.storageKey (s.memories ++ [⟨text, mtype, meta⟩])) := by
  refine ⟨?_, rfl, rfl, rfl⟩
  simp [injectMemory, saveToDisk, auditLog]

/-! ## Claim C10 -/

/-- Counterexample to C10 as stated: with a valid key, an unrecognized
backend string (here `"chroma"`, with neither the FAISS nor the Pinecone
library available) falls through both backend branches and construction
succeeds, although the claim requires construction to fail for every
unsupported or unavailable backend. -/
theorem claim10_counterexample :
    (initModule (some 0) true "chroma" false false true 384 none).isOk = true ∧
    pyLower "chroma" ≠ "faiss" ∧ pyLower "chroma" ≠ "pinecone" :=
  ⟨by decide, by decide, by decide⟩

/-- Claim C10, amended: construction fails iff no encryption key is
configured, the key is invalid, or the backend string lower-cases to
`"faiss"`/`"pinecone"` and the corresponding library is unavailable (or the
Pinecone remote initialization fails); any other backend string constructs
successfully, with no vector index. -/
theorem claim10_amended_init_failure_iff (encKey : Option Nat)
    (keyValid : Bool) (vectorDb : String)
    (fa pa po : Bool) (dim : Nat) (d : Disk) :
    (initModule encKey keyValid vectorDb fa pa po dim d).isOk = false ↔
      (encKey = none ∨ keyValid = false ∨
        (pyLower vectorDb = "faiss" ∧ fa = false) ∨
        (pyLower vectorDb = "pinecone" ∧ (pa = false ∨ po = false))) := by
  cases encKey with
  | none => simp [initModule, Except.isOk, Except.toBool]
  | some key =>
    cases keyValid with
    | false => simp [initModule, Except.isOk, Except.toBool]
    | true =>
      simp only [initModule, Bool.true_eq_false, if_false, reduceCtorEq,
        false_or]
      by_cases hf : pyLower vectorDb = "faiss"
      · simp only [hf, beq_self_eq_true, if_true]
        cases fa <;> simp [Except.isOk, Except.toBool]
      · have hf' : (pyLower vectorDb == "faiss") = false := by
          simp [hf]
        simp only [hf', Bool.false_eq_true, if_false]
        by_cases hp : pyLower vectorDb = "pinecone"
        · simp only [hp, beq_self_eq_true, if_true]
          cases pa with
          | false => simp [Except.isOk, Except.toBool, hf]
          | true => cases po <;> simp [Except.isOk, Except.toBool, hf]
        · have hp' : (pyLower vectorDb == "pinecone") = false := by
            simp [hp]
          simp [hp', Except.isOk, Except.toBool, hf, hp]

/-! ## Generic list lemmas -/

theorem map_eraseIdx (f : α → β) : ∀ (l : List α) (i : Nat),
    (l.map f).eraseIdx i = (l.eraseIdx i).map f
  | [], _ => by simp [List.eraseIdx]
  | _ :: _, 0 => by simp [List.eraseIdx]
  | a :: l, (i + 1) => by
      simp only [List.map_cons, List.eraseIdx, map_eraseIdx f l i]

theorem mem_insertBy (le : α → α → Bool) (a b : α) (l : List α) :
    b ∈ insertBy le a l ↔ b = a ∨ b ∈ l := by
  induction l with
  | nil => simp [insertBy]
  | cons x xs ih =>
      rw [insertBy]
      split
      · simp [List.mem_cons]
      · rw [List.mem_cons, ih, List.mem_cons]
        tauto

theorem mem_sortBy (le : α → α → Bool) (b : α) (l : List α) :
    b ∈ sortBy le l ↔ b ∈ l := by
  induction l with
  | nil => simp [sortBy]
  | cons x xs ih =>
      rw [sortBy, mem_insertBy, ih, List.mem_cons]

/-! ## Claim C5 -/

/-- Counterexample to C5 as stated: starting from an aligned fresh module,
`inject_memory` appends a record without adding any vector, and
`load_from_disk` replaces the record list without touching the index, so
neither preserves the record-count/vector-count correspondence. -/
theorem claim5_counterexample :
    alignedIndex embedLen (freshModule 0 384) ∧
    ¬ alignedIndex embedLen
        (injectMemory (freshModule 0 384) none "a" [] "semantic").1 ∧
    ¬ alignedIndex embedLen
        (loadFromDisk (freshModule 0 384)
          (some (fernetEncrypt 0 [⟨"a", "semantic", []⟩]))) :=
  ⟨by decide, by decide, by decide⟩

theorem aligned_eraseBoth (embed : String → Vec) (L : List Nat) :
    ∀ (s : MemoryModule), alignedIndex embed s →
      alignedIndex embed (L.foldl (fun st i =>
        { st with memories := st.memories.eraseIdx i,
                  index := st.index.eraseIdx i }) s) := by
  induction L with
  | nil => intro s h; exact h
  | cons i rest ih =>
      intro s h
      rw [List.foldl_cons]
      apply ih
      unfold alignedIndex at h ⊢
      simp only [h, map_eraseIdx]

/-- Claim C5, amended: `store_memory` and `prune_memories` preserve the
alignment between the store and the vector index (`store` appends to both
in lockstep; `prune` deletes the same positions from both in descending
order); `inject_memory` and `load_from_disk` do not preserve it (see the
counterexample). -/
theorem claim5_amended_store_prune_preserve (embed : String → Vec) :
    (∀ (ok : Bool) (s : MemoryModule) (d : Disk) (text : String)
        (meta : List (String × String)) (mtype : String),
        alignedIndex embed s →
        alignedIndex embed (storeMemory embed ok s d text meta mtype).1) ∧
    (∀ (s : MemoryModule) (d : Disk) (threshold : Frac)
        (mtype : Option String) (out : MemoryModule × Disk × Nat),
        alignedIndex embed s →
        pruneMemories s d threshold mtype = .ok out →
        alignedIndex embed out.1) := by
  constructor
  · intro ok s d text meta mtype h
    cases ok with
    | false => exact h
    | true =>
        unfold alignedIndex at h ⊢
        simp [storeMemory, saveToDisk, auditLog, h]
  · intro s d threshold mtype out h hp
    unfold pruneMemories at hp
    split at hp
    · cases hp; exact h
    · split at hp
      · cases hp; exact h
      · split at hp
        · unfold pruneCore at hp
          simp only [saveToDisk] at hp
          cases hp
          simp only [alignedIndex, auditLog] at h ⊢
          exact aligned_eraseBoth embed _ s h
        · cases hp

/-- Witness for the amended C5: applying both parts at a concrete aligned
one-record module. -/
theorem claim5_witness :
    alignedIndex embedLen
      (storeMemory embedLen true (freshModule 0 384) none "ab" [] "semantic").1 ∧
    alignedIndex embedLen
      (auditLog
        (storeMemory embedLen true (freshModule 0 384) none "ab" [] "semantic").1
        "save_to_disk") :=
  ⟨(claim5_amended_store_prune_preserve embedLen).1 true (freshModule 0 384)
      none "ab" [] "semantic" (by decide),
   (claim5_amended_store_prune_preserve embedLen).2
      (storeMemory embedLen true (freshModule 0 384) none "ab" [] "semantic").1
      none 0 none
      (auditLog
        (storeMemory embedLen true (freshModule 0 384) none "ab" [] "semantic").1
        "save_to_disk",
       some (fernetEncrypt 0 [⟨"ab", "semantic", []⟩]), 0)
      (by decide) (by decide)⟩

/-! ## Claim C4 -/

/-- Claim C4 evaluated at the failing input: `prune_memories(-30)` with no
filter must, per the claim, remove exactly position 0 (`"x"`, score `-81`,
the only score below `-30`).  Instead the source enumerates the
distance-sorted row list `D[0] = [16, 25, 81]` and treats the enumeration
rank as the store position, so it removes position 2 (`"z"`, the *nearest*
record, score `-16`) and keeps `"x"`; the returned count is 1. -/
theorem claim4_prune_rank_confusion :
    ((pruneMemories prState.1 prState.2 (-30) none).map
      (fun out => (out.1.memories.map (fun m => m.text), out.2.2))) =
        .ok (["x", "y"], 1) ∧
    -(sqDist (meanVec [[14], [0], [1]]) [14]) < -(30 : Frac) ∧
    ¬ (-(sqDist (meanVec [[14], [0], [1]]) [1]) < -(30 : Frac)) ∧
    prState.1.index = [[14], [0], [1]] ∧
    prState.1.memories.map (fun m => m.text) = ["x", "y", "z"] :=
  ⟨by decide, by decide, by decide, by decide, by decide⟩

/-! ## Claim C7 -/

/-- Counterexample to C7 as stated: the injected, never-embedded record
`"beta"` is returned by a vector-only retrieval (`hybrid = False`, so the
lexical stage is off): the episodic type filter triggers the temporary
sub-index, which re-embeds the filtered records — injected ones
included — and serves them from the vector stage. -/
theorem claim7_counterexample :
    sInj.memories.map (fun m => m.text) = ["alpha", "beta"] ∧
    sInj.index.length = 1 ∧
    (retrieveMemory embedLen sInj "zzz" 1 (some "episodic") false).map
      (fun e => e.text) = ["beta"] :=
  ⟨by decide, by decide, by decide⟩

/-! ## Lemmas about enumeration, lookup and the vector stage -/

theorem enumFrom_get? (l : List α) : ∀ (n j : Nat),
    (l.enumFrom n).get? j = (l.get? j).map (fun a => (n + j, a)) := by
  induction l with
  | nil => intro n j; simp [List.enumFrom]
  | cons a l ih =>
      intro n j
      cases j with
      | zero => simp [List.enumFrom]
      | succ j =>
          simp only [List.enumFrom, List.get?, ih (n + 1) j]
          rw [Nat.add_assoc, Nat.add_comm 1 j]

theorem enum_get? (l : List α) (j : Nat) :
    l.enum.get? j = (l.get? j).map (fun a => (j, a)) := by
  have h := enumFrom_get? l 0 j
  simp only [Nat.zero_add] at h
  exact h

theorem mem_enum_iff (l : List α) (p : Nat × α) :
    p ∈ l.enum ↔ l.get? p.1 = some p.2 := by
  constructor
  · intro hp
    obtain ⟨j, hj⟩ := List.mem_iff_get?.mp hp
    rw [enum_get? l j] at hj
    cases hl : l.get? j with
    | none => rw [hl] at hj; cases hj
    | some a =>
        rw [hl] at hj
        cases hj
        exact hl
  · intro hp
    apply List.get?_mem (n := p.1)
    rw [enum_get? l p.1, hp]
    simp

theorem enum_length (l : List α) : l.enum.length = l.length :=
  List.enum_length

theorem pyGet?_mem {l : List α} {i : Int} {a : α} (h : pyGet? l i = some a) :
    a ∈ l := by
  unfold pyGet? at h
  split at h
  · exact List.get?_mem h
  · split at h
    · exact List.get?_mem h
    · cases h

theorem pyGet?_ofNat (l : List α) (j : Nat) :
    pyGet? l (j : Int) = l.get? j := by
  unfold pyGet?
  rw [if_pos (Int.ofNat_nonneg j)]
  simp

/-- Every row of `vectorEntries` output comes from a search row: the record
looked up through `idx_map` supplies the fields, and the score is the
negated distance. -/
theorem vectorEntries_mem (s : MemoryModule)
    (filtered : List (Nat × MemoryRecord)) (res : List (Int × Frac))
    (es : List ResultEntry) (hsome : vectorEntries s filtered res = some es)
    (e : ResultEntry) (he : e ∈ es) :
    ∃ r ∈ res, ∃ m : MemoryRecord,
      pyGet? s.memories (idxMapGet filtered r.1) = some m ∧
      e.text = m.text ∧ e.type = m.type ∧ e.meta = m.meta ∧ e.score = -r.2 := by
  induction res generalizing es with
  | nil =>
      rw [vectorEntries] at hsome
      cases hsome
      cases he
  | cons r rs ih =>
      rw [vectorEntries] at hsome
      cases hm : pyGet? s.memories (idxMapGet filtered r.1) with
      | none => rw [hm] at hsome; cases hsome
      | some m =>
          rw [hm] at hsome
          cases hrec : vectorEntries s filtered rs with
          | none => rw [hrec] at hsome; cases hsome
          | some es' =>
              rw [hrec] at hsome
              cases hsome
              rcases List.mem_cons.mp he with he1 | he2
              · exact ⟨r, List.mem_cons_self r rs, m, hm, by
                  cases he1; exact ⟨rfl, rfl, rfl, rfl⟩⟩
              · obtain ⟨r', hr', m', hm', hfields⟩ := ih es' hrec he2
                exact ⟨r', List.mem_cons_of_mem r hr', m', hm', hfields⟩

/-- Without padding (`k` at most the index size), every search row id is a
genuine index position. -/
theorem indexSearch_mem_no_pad (index : List Vec) (q : Vec) (k : Nat)
    (hk : k ≤ index.length) (r : Int × Frac)
    (hr : r ∈ indexSearch index q k) :
    ∃ j : Nat, r.1 = (j : Int) ∧ j < index.length := by
  unfold indexSearch at hr
  rw [Nat.sub_eq_zero_of_le hk, List.replicate_zero, List.append_nil] at hr
  have hr2 : r ∈ sortBy distLe (index.enum.map
      (fun p => ((p.1 : Int), sqDist q p.2))) := List.mem_of_mem_take hr
  rw [mem_sortBy] at hr2
  obtain ⟨p, hp, hpr⟩ := List.mem_map.mp hr2
  refine ⟨p.1, by rw [← hpr], ?_⟩
  have := (mem_enum_iff index p).mp hp
  have hlt : p.1 < index.length := by
    by_contra hge
    rw [List.get?_eq_none.mpr (Nat.le_of_not_lt hge)] at this
    cases this
  exact hlt

/-- When the length of the type-filtered enumeration equals the store
length, every record matches the filter. -/
theorem filter_all_of_length_eq (s : MemoryModule) (mtype : Option String)
    (hlen : (filteredMems s mtype).length = s.memories.length)
    (m : MemoryRecord) (hm : m ∈ s.memories) : typeMatches mtype m = true := by
  have hs : List.Sublist (filteredMems s mtype) s.memories.enum :=
    List.filter_sublist s.memories.enum
  have hlen' : (filteredMems s mtype).length = s.memories.enum.length := by
    rw [hlen, enum_length]
  have heq := List.Sublist.eq_of_length hs hlen'
  obtain ⟨j, hj⟩ := List.mem_iff_get?.mp hm
  have hpair : (j, m) ∈ s.memories.enum := (mem_enum_iff _ _).mpr hj
  rw [← heq] at hpair
  unfold filteredMems at hpair
  have hf := List.of_mem_filter hpair
  simpa using hf

/-- Every entry produced by the vector stage with a type filter has the
filtered type. -/
theorem vectorStage_type (embed : String → Vec) (s : MemoryModule)
    (query : String) (topK : Nat) (t : String) (vres : List ResultEntry)
    (hv : vectorStage? embed s query topK (some t) = some vres)
    (e : ResultEntry) (he : e ∈ vres) : e.type = t := by
  rw [vectorStage?] at hv
  by_cases hlen : (filteredMems s (some t)).length = s.memories.length
  · rw [if_neg (by simp [hlen])] at hv
    obtain ⟨r, _hr, m, hm, _, hty, _⟩ :=
      vectorEntries_mem s _ _ vres hv e he
    have hmem : m ∈ s.memories := pyGet?_mem hm
    have := filter_all_of_length_eq s (some t) hlen m hmem
    simp only [typeMatches, beq_iff_eq] at this
    rw [hty, this]
  · rw [if_pos (by simpa using hlen)] at hv
    obtain ⟨r, hr, m, hm, _, hty, _⟩ :=
      vectorEntries_mem s _ _ vres hv e he
    have hk : min topK (filteredMems s (some t)).length ≤
        ((filteredMems s (some t)).map (fun p => embed p.2.text)).length := by
      rw [List.length_map]
      exact Nat.min_le_right _ _
    obtain ⟨j, hj1, hj2⟩ := indexSearch_mem_no_pad _ _ _ hk r hr
    rw [List.length_map] at hj2
    obtain ⟨p, hp⟩ : ∃ p, (filteredMems s (some t)).get? j = some p := by
      cases hg : (filteredMems s (some t)).get? j with
      | none => rw [List.get?_eq_none] at hg; omega
      | some p => exact ⟨p, rfl⟩
    have horig : idxMapGet (filteredMems s (some t)) r.1 = (p.1 : Int) := by
      unfold idxMapGet
      rw [hj1, if_pos (Int.ofNat_nonneg j)]
      simp only [Int.toNat_ofNat, hp]
    rw [horig, pyGet?_ofNat] at hm
    have hpmem : p ∈ filteredMems s (some t) := List.get?_mem hp
    unfold filteredMems at hpmem
    have hmatch := List.of_mem_filter hpmem
    simp only at hmatch
    have hpair : p ∈ s.memories.enum := List.mem_of_mem_filter hpmem
    have hget : s.memories.get? p.1 = some p.2 := (mem_enum_iff _ _).mp hpair
    rw [hget] at hm
    cases hm
    simp only [typeMatches, beq_iff_eq] at hmatch
    rw [hty, hmatch]

/-- Every entry produced by the lexical stage with a type filter has the
filtered type. -/
theorem keywordStage_type (s : MemoryModule) (query : String) (t : String)
    (e : ResultEntry) (he : e ∈ keywordStage s query (some t)) : e.type = t := by
  unfold keywordStage at he
  obtain ⟨p, hp, hpe⟩ := List.mem_filterMap.mp he
  unfold filteredMems at hp
  have hmatch := List.of_mem_filter hp
  simp only [typeMatches, beq_iff_eq] at hmatch
  split at hpe
  · cases hpe
    exact hmatch
  · cases hpe

/-- Every value held by the merged dict carries the text, type and meta of
some entry of one of the two stages (only the score is ever rewritten). -/
theorem mergeByText_fields (vres lres : List ResultEntry) (e : ResultEntry)
    (he : e ∈ mergeByText vres lres) :
    ∃ e0 : ResultEntry, (e0 ∈ vres ∨ e0 ∈ lres) ∧
      e.text = e0.text ∧ e.type = e0.type ∧ e.meta = e0.meta := by
  classical
  unfold mergeByText mergeDict at he
  obtain ⟨pr, hpr, hpre⟩ := List.mem_map.mp he
  suffices h : ∀ p ∈ (lres.foldl dictMaxScore
      (vres.foldl (fun d r => dictSet d r.text r) [])),
      ∃ e0 : ResultEntry, (e0 ∈ vres ∨ e0 ∈ lres) ∧
        p.2.text = e0.text ∧ p.2.type = e0.type ∧ p.2.meta = e0.meta by
    obtain ⟨e0, h1, h2⟩ := h pr hpr
    exact ⟨e0, h1, hpre ▸ h2⟩
  have step1 : ∀ p ∈ (vres.foldl (fun d r => dictSet d r.text r) []),
      ∃ e0 : ResultEntry, e0 ∈ vres ∧
        p.2.text = e0.text ∧ p.2.type = e0.type ∧ p.2.meta = e0.meta := by
    suffices hgen : ∀ (vs : List ResultEntry)
        (d : List (String × ResultEntry)),
        (∀ v ∈ vs, v ∈ vres) →
        (∀ p ∈ d, ∃ e0 : ResultEntry, e0 ∈ vres ∧
          p.2.text = e0.text ∧ p.2.type = e0.type ∧ p.2.meta = e0.meta) →
        ∀ p ∈ (vs.foldl (fun d r => dictSet d r.text r) d),
        ∃ e0 : ResultEntry, e0 ∈ vres ∧
          p.2.text = e0.text ∧ p.2.type = e0.type ∧ p.2.meta = e0.meta by
      intro p hp
      exact hgen vres [] (fun v hv => hv) (by intro p hp; cases hp) p hp
    intro vs
    induction vs with
    | nil => intro d _ hd p hp; exact hd p hp
    | cons v vs ih =>
        intro d hvs hd p hp
        rw [List.foldl_cons] at hp
        refine ih _ (fun w hw => hvs w (List.mem_cons_of_mem v hw)) ?_ p hp
        intro q hq
        unfold dictSet at hq
        split at hq
        · obtain ⟨q0, hq0, hq0e⟩ := List.mem_map.mp hq
          by_cases hkey : (q0.1 == v.text) = true
          · rw [if_pos hkey] at hq0e
            refine ⟨v, hvs v (List.mem_cons_self v vs), ?_⟩
            rw [← hq0e]
            exact ⟨rfl, rfl, rfl⟩
          · rw [if_neg hkey] at hq0e
            exact hq0e ▸ hd q0 hq0
        · rcases List.mem_append.mp hq with hq1 | hq2
          · exact hd q hq1
          · rcases List.mem_singleton.mp hq2 with rfl
            exact ⟨v, hvs v (List.mem_cons_self v vs), rfl, rfl, rfl⟩
  suffices hgen : ∀ (ls : List ResultEntry)
      (d : List (String × ResultEntry)),
      (∀ l ∈ ls, l ∈ lres) →
      (∀ p ∈ d, ∃ e0 : ResultEntry, (e0 ∈ vres ∨ e0 ∈ lres) ∧
        p.2.text = e0.text ∧ p.2.type = e0.type ∧ p.2.meta = e0.meta) →
      ∀ p ∈ (ls.foldl dictMaxScore d),
      ∃ e0 : ResultEntry, (e0 ∈ vres ∨ e0 ∈ lres) ∧
        p.2.text = e0.text ∧ p.2.type = e0.type ∧ p.2.meta = e0.meta by
    intro p hp
    refine hgen lres _ (fun l hl => hl) ?_ p hp
    intro q hq
    obtain ⟨e0, h1, h2⟩ := step1 q hq
    exact ⟨e0, Or.inl h1, h2⟩
  intro ls
  induction ls with
  | nil => intro d _ hd p hp; exact hd p hp
  | cons l ls ih =>
      intro d hls hd p hp
      rw [List.foldl_cons] at hp
      refine ih _ (fun w hw => hls w (List.mem_cons_of_mem l hw)) ?_ p hp
      intro q hq
      unfold dictMaxScore at hq
      split at hq
      · obtain ⟨q0, hq0, hq0e⟩ := List.mem_map.mp hq
        by_cases hkey : (q0.1 == l.text) = true
        · rw [if_pos hkey] at hq0e
          obtain ⟨e0, h1, h2, h3, h4⟩ := hd q0 hq0
          refine ⟨e0, h1, ?_⟩
          rw [← hq0e]
          exact ⟨h2, h3, h4⟩
        · rw [if_neg hkey] at hq0e
          exact hq0e ▸ hd q0 hq0
      · rcases List.mem_append.mp hq with hq1 | hq2
        · exact hd q hq1
        · rcases List.mem_singleton.mp hq2 with rfl
          exact ⟨l, Or.inr (hls l (List.mem_cons_self l ls)), rfl, rfl, rfl⟩

/-! ## Claim C7, amended part -/

theorem filteredMems_none (s : MemoryModule) :
    filteredMems s none = s.memories.enum := by
  unfold filteredMems
  rw [List.filter_eq_self.mpr]
  intro a _
  rfl

theorem idxMapGet_enum (l : List MemoryRecord) (j : Nat) :
    idxMapGet l.enum (j : Int) = (j : Int) := by
  unfold idxMapGet
  rw [if_pos (Int.ofNat_nonneg j)]
  simp only [Int.toNat_ofNat]
  rw [enum_get? l j]
  cases hl : l.get? j with
  | none => simp
  | some a => simp

/-- Claim C7, amended: in an *unfiltered* retrieval with `top_k` within the
index size, every vector-stage entry (here `hybrid = False`, so the whole
result) is drawn from a record at an indexed position `p < ntotal`; hence a
record created by `inject_memory`, sitting at a position beyond the indexed
vectors with a text no indexed-position record shares, can be returned only
through the lexical stage.  With a type filter the guarantee fails: the
temporary sub-index re-embeds injected records and serves them from the
vector stage (see the counterexample). -/
theorem claim7_amended_unfiltered_vector_stage (embed : String → Vec)
    (s : MemoryModule) (query : String) (topK : Nat)
    (htop : topK ≤ s.index.length) (e : ResultEntry)
    (he : e ∈ retrieveMemory embed s query topK none false) :
    ∃ p : Nat, p < s.index.length ∧ ∃ m : MemoryRecord,
      s.memories.get? p = some m ∧ e.text = m.text ∧ e.type = m.type := by
  rw [retrieveMemory] at he
  split at he
  · cases he
  · split at he
    · cases he
    · cases hv : vectorStage? embed s query topK none with
      | none => rw [hv] at he; cases he
      | some results =>
          rw [hv] at he
          simp only [Bool.false_eq_true, if_false] at he
          have he2 : e ∈ results := List.mem_of_mem_take he
          rw [vectorStage?] at hv
          have hlen : (filteredMems s none).length = s.memories.length := by
            rw [filteredMems_none, enum_length]
          rw [if_neg (by simp [hlen])] at hv
          obtain ⟨r, hr, m, hm, htext, hty, _⟩ :=
            vectorEntries_mem s _ _ results hv e he2
          have hk : min topK (filteredMems s none).length ≤ s.index.length :=
            le_trans (Nat.min_le_left _ _) htop
          obtain ⟨j, hj1, hj2⟩ := indexSearch_mem_no_pad _ _ _ hk r hr
          rw [filteredMems_none, hj1, idxMapGet_enum, pyGet?_ofNat] at hm
          exact ⟨j, hj2, m, hm, htext, hty⟩

/-- Witness for the amended C7: one stored record, `top_k = 1`; the single
returned entry traces back to indexed position 0. -/
theorem claim7_witness :
    1 ≤ ((storeMemory embedLen true (freshModule 0 384) none "alpha" []
      "semantic").1).index.length ∧
    ∃ p : Nat,
      p < ((storeMemory embedLen true (freshModule 0 384) none "alpha" []
        "semantic").1).index.length ∧
      ∃ m : MemoryRecord,
        ((storeMemory embedLen true (freshModule 0 384) none "alpha" []
          "semantic").1).memories.get? p = some m ∧
        (⟨"alpha", "semantic", [],
          -(sqDist (embedLen "alpha") (embedLen "alpha"))⟩ : ResultEntry).text =
            m.text ∧
        (⟨"alpha", "semantic", [],
          -(sqDist (embedLen "alpha") (embedLen "alpha"))⟩ : ResultEntry).type =
            m.type :=
  ⟨by decide,
   claim7_amended_unfiltered_vector_stage embedLen
     (storeMemory embedLen true (freshModule 0 384) none "alpha" []
       "semantic").1
     "alpha" 1 (by decide)
     ⟨"alpha", "semantic", [],
       -(sqDist (embedLen "alpha") (embedLen "alpha"))⟩
     (by decide)⟩

/-! ## Claim C9 -/

/-- Claim C9: `retrieve_memory` with a type filter never returns a record
whose type differs from the filter, for any store contents, query, `top_k`
and hybrid flag. -/
theorem claim9_type_filter_isolation (embed : String → Vec)
    (s : MemoryModule) (query : String) (topK : Nat) (t : String)
    (hybrid : Bool) (e : ResultEntry)
    (he : e ∈ retrieveMemory embed s query topK (some t) hybrid) :
    e.type = t := by
  rw [retrieveMemory] at he
  split at he
  · cases he
  · split at he
    · cases he
    · cases hv : vectorStage? embed s query topK (some t) with
      | none => rw [hv] at he; cases he
      | some results =>
          rw [hv] at he
          cases hybrid with
          | false =>
              simp only [Bool.false_eq_true, if_false] at he
              exact vectorStage_type embed s query topK t results hv e
                (List.mem_of_mem_take he)
          | true =>
              simp only [if_true] at he
              have hem : e ∈ mergeByText results (keywordStage s query (some t)) := by
                have h1 : e ∈ sortBy scoreGe
                    (mergeByText results (keywordStage s query (some t))) :=
                  List.mem_of_mem_take he
                rwa [mem_sortBy] at h1
              obtain ⟨e0, h1, _, hty, _⟩ :=
                mergeByText_fields _ _ e hem
              rcases h1 with h1 | h1
              · rw [hty]
                exact vectorStage_type embed s query topK t results hv e0 h1
              · rw [hty]
                exact keywordStage_type s query t e0 h1

/-- Witness for C9: a store holding one procedural and one semantic record;
the procedural-filtered hybrid retrieval returns the procedural record, and
the theorem shows its type. -/
theorem claim9_witness :
    (⟨"proc stuff", "procedural", [],
        -(sqDist (embedLen "zzz") (embedLen "proc stuff"))⟩ : ResultEntry).type =
      "procedural" :=
  claim9_type_filter_isolation embedLen
    (storeMemory embedLen true
      (storeMemory embedLen true (freshModule 0 384) none "alpha" [] "semantic").1
      none "proc stuff" [] "procedural").1
    "zzz" 1 "procedural" true
    ⟨"proc stuff", "procedural", [],
      -(sqDist (embedLen "zzz") (embedLen "proc stuff"))⟩
    (by decide)

/-! ## Claim C8: dict-merge lemmas -/

def dictKeys (d : List (String × ResultEntry)) : List String :=
  d.map (fun p => p.1)

/-- Every pair of the merged dict keys its value by the value text. -/
def DictInv (d : List (String × ResultEntry)) : Prop :=
  ∀ p ∈ d, p.1 = p.2.text

theorem map_fst_if_replace (d : List (String × ResultEntry)) (k : String)
    (f : String × ResultEntry → ResultEntry) :
    ((d.map (fun p => if p.1 == k then (p.1, f p) else p)).map
      (fun p => p.1)) = d.map (fun p => p.1) := by
  induction d with
  | nil => rfl
  | cons q d ih =>
      simp only [List.map_cons, ih]
      congr 1
      split <;> rfl

theorem mem_dictKeys_dictSet (d : List (String × ResultEntry)) (k : String)
    (v : ResultEntry) (x : String) :
    x ∈ dictKeys (dictSet d k v) ↔ x ∈ dictKeys d ∨ x = k := by
  unfold dictSet dictKeys
  split
  case isTrue h =>
    rw [map_fst_if_replace]
    constructor
    · exact Or.inl
    · rintro (hx | rfl)
      · exact hx
      · obtain ⟨p, hp, hpk⟩ := List.any_eq_true.mp h
        have hpx : p.1 = x := by simpa using hpk
        exact hpx ▸ List.mem_map_of_mem (fun p => p.1) hp
  case isFalse h =>
    rw [List.map_append]
    simp [List.mem_append]

theorem mem_dictKeys_dictMaxScore (d : List (String × ResultEntry))
    (e : ResultEntry) (x : String) :
    x ∈ dictKeys (dictMaxScore d e) ↔ x ∈ dictKeys d ∨ x = e.text := by
  unfold dictMaxScore dictKeys
  split
  case isTrue h =>
    rw [map_fst_if_replace]
    constructor
    · exact Or.inl
    · rintro (hx | hx)
      · exact hx
      · obtain ⟨p, hp, hpk⟩ := List.any_eq_true.mp h
        have hpx : p.1 = e.text := by simpa using hpk
        rw [hx, ← hpx]
        exact List.mem_map_of_mem (fun p => p.1) hp
  case isFalse h =>
    rw [List.map_append]
    simp [List.mem_append]

theorem mem_dictKeys_foldl_dictSet (vs : List ResultEntry) :
    ∀ (d : List (String × ResultEntry)) (x : String),
    (x ∈ dictKeys (vs.foldl (fun d r => dictSet d r.text r) d) ↔
      x ∈ dictKeys d ∨ x ∈ vs.map (fun e => e.text)) := by
  induction vs with
  | nil => intro d x; simp
  | cons v vs ih =>
      intro d x
      rw [List.foldl_cons, ih, mem_dictKeys_dictSet]
      simp only [List.map_cons, List.mem_cons]
      tauto

theorem mem_dictKeys_foldl_dictMaxScore (ls : List ResultEntry) :
    ∀ (d : List (String × ResultEntry)) (x : String),
    (x ∈ dictKeys (ls.foldl dictMaxScore d) ↔
      x ∈ dictKeys d ∨ x ∈ ls.map (fun e => e.text)) := by
  induction ls with
  | nil => intro d x; simp
  | cons l ls ih =>
      intro d x
      rw [List.foldl_cons, ih, mem_dictKeys_dictMaxScore]
      simp only [List.map_cons, List.mem_cons]
      tauto

theorem dictInv_dictSet (d : List (String × ResultEntry)) (v : ResultEntry)
    (h : DictInv d) : DictInv (dictSet d v.text v) := by
  intro p hp
  unfold dictSet at hp
  split at hp
  · obtain ⟨q, hq, hqe⟩ := List.mem_map.mp hp
    by_cases hk : (q.1 == v.text) = true
    · rw [if_pos hk] at hqe
      rw [← hqe]
      simpa using hk
    · rw [if_neg hk] at hqe
      exact hqe ▸ h q hq
  · rcases List.mem_append.mp hp with hp1 | hp2
    · exact h p hp1
    · rcases List.mem_singleton.mp hp2 with rfl
      rfl

theorem dictInv_dictMaxScore (d : List (String × ResultEntry))
    (e : ResultEntry) (h : DictInv d) : DictInv (dictMaxScore d e) := by
  intro p hp
  unfold dictMaxScore at hp
  split at hp
  · obtain ⟨q, hq, hqe⟩ := List.mem_map.mp hp
    by_cases hk : (q.1 == e.text) = true
    · rw [if_pos hk] at hqe
      rw [← hqe]
      exact h q hq
    · rw [if_neg hk] at hqe
      exact hqe ▸ h q hq
  · rcases List.mem_append.mp hp with hp1 | hp2
    · exact h p hp1
    · rcases List.mem_singleton.mp hp2 with rfl
      rfl

theorem dictInv_mergeDict (vres lres : List ResultEntry) :
    DictInv (mergeDict vres lres) := by
  unfold mergeDict
  have step1 : ∀ (vs : List ResultEntry) (d : List (String × ResultEntry)),
      DictInv d → DictInv (vs.foldl (fun d r => dictSet d r.text r) d) := by
    intro vs
    induction vs with
    | nil => intro d hd; exact hd
    | cons v vs ih =>
        intro d hd
        rw [List.foldl_cons]
        exact ih _ (dictInv_dictSet d v hd)
  have step2 : ∀ (ls : List ResultEntry) (d : List (String × ResultEntry)),
      DictInv d → DictInv (ls.foldl dictMaxScore d) := by
    intro ls
    induction ls with
    | nil => intro d hd; exact hd
    | cons l ls ih =>
        intro d hd
        rw [List.foldl_cons]
        exact ih _ (dictInv_dictMaxScore d l hd)
  exact step2 lres _ (step1 vres [] (by intro p hp; cases hp))

theorem map_text_values_eq_keys (d : List (String × ResultEntry))
    (h : DictInv d) :
    (d.map (fun p => p.2)).map (fun e => e.text) = dictKeys d := by
  induction d with
  | nil => rfl
  | cons q d ih =>
      have hq : q.1 = q.2.text := h q (List.mem_cons_self q d)
      simp only [List.map_cons, dictKeys] at ih ⊢
      rw [ih (fun p hp => h p (List.mem_cons_of_mem q hp)), hq]

theorem nodup_dictKeys_dictSet (d : List (String × ResultEntry)) (k : String)
    (v : ResultEntry) (h : (dictKeys d).Nodup) :
    (dictKeys (dictSet d k v)).Nodup := by
  unfold dictSet dictKeys at *
  split
  case isTrue hc => rw [map_fst_if_replace]; exact h
  case isFalse hc =>
    rw [List.map_append]
    have hk : k ∉ d.map (fun p => p.1) := by
      intro hmem
      obtain ⟨p, hp, hpe⟩ := List.mem_map.mp hmem
      have hany : (d.any (fun p => p.1 == k)) = true :=
        List.any_eq_true.mpr ⟨p, hp, by simp [hpe]⟩
      exact hc hany
    simp [List.nodup_append, h, hk]

theorem nodup_dictKeys_dictMaxScore (d : List (String × ResultEntry))
    (e : ResultEntry) (h : (dictKeys d).Nodup) :
    (dictKeys (dictMaxScore d e)).Nodup := by
  unfold dictMaxScore dictKeys at *
  split
  case isTrue hc => rw [map_fst_if_replace]; exact h
  case isFalse hc =>
    rw [List.map_append]
    have hk : e.text ∉ d.map (fun p => p.1) := by
      intro hmem
      obtain ⟨p, hp, hpe⟩ := List.mem_map.mp hmem
      have hany : (d.any (fun p => p.1 == e.text)) = true :=
        List.any_eq_true.mpr ⟨p, hp, by simp [hpe]⟩
      exact hc hany
    simp [List.nodup_append, h, hk]

theorem nodup_dictKeys_mergeDict (vres lres : List ResultEntry) :
    (dictKeys (mergeDict vres lres)).Nodup := by
  unfold mergeDict
  have step1 : ∀ (vs : List ResultEntry) (d : List (String × ResultEntry)),
      (dictKeys d).Nodup →
      (dictKeys (vs.foldl (fun d r => dictSet d r.text r) d)).Nodup := by
    intro vs
    induction vs with
    | nil => intro d hd; exact hd
    | cons v vs ih =>
        intro d hd
        rw [List.foldl_cons]
        exact ih _ (nodup_dictKeys_dictSet d v.text v hd)
  have step2 : ∀ (ls : List ResultEntry) (d : List (String × ResultEntry)),
      (dictKeys d).Nodup → (dictKeys (ls.foldl dictMaxScore d)).Nodup := by
    intro ls
    induction ls with
    | nil => intro d hd; exact hd
    | cons l ls ih =>
        intro d hd
        rw [List.foldl_cons]
        exact ih _ (nodup_dictKeys_dictMaxScore d l hd)
  exact step2 lres _ (step1 vres [] List.nodup_nil)

theorem foldl_dictSet_of_disjoint (vs : List ResultEntry) :
    ∀ (d : List (String × ResultEntry)),
    (∀ r ∈ vs, (d.any (fun p => p.1 == r.text)) = false) →
    (vs.map (fun e => e.text)).Nodup →
    vs.foldl (fun d r => dictSet d r.text r) d =
      d ++ vs.map (fun r => (r.text, r)) := by
  induction vs with
  | nil => intro d _ _; simp
  | cons v vs ih =>
      intro d hdisj hnd
      rw [List.map_cons] at hnd
      obtain ⟨hnotin, hndrest⟩ := List.nodup_cons.mp hnd
      rw [List.foldl_cons]
      have hv : (d.any (fun p => p.1 == v.text)) = false :=
        hdisj v (List.mem_cons_self v vs)
      have hset : dictSet d v.text v = d ++ [(v.text, v)] := by
        unfold dictSet
        rw [if_neg (by rw [hv]; exact Bool.false_ne_true)]
      rw [hset, ih _ ?_ hndrest]
      · simp
      · intro r hr
        rw [List.any_append]
        have h1 : (d.any (fun p => p.1 == r.text)) = false :=
          hdisj r (List.mem_cons_of_mem v hr)
        have h2 : ([(v.text, v)].any (fun p => p.1 == r.text)) = false := by
          simp only [List.any_cons, List.any_nil, Bool.or_false]
          have hvr : v.text ≠ r.text := by
            intro hcontra
            exact hnotin (hcontra ▸
              List.mem_map_of_mem (fun e => e.text) hr)
          simpa using hvr
        rw [h1, h2]
        rfl

theorem find_map_pair (vres : List ResultEntry)
    (hnd : (vres.map (fun e => e.text)).Nodup) (v : ResultEntry)
    (hv : v ∈ vres) :
    (vres.map (fun r => (r.text, r))).find? (fun p => p.1 == v.text) =
      some (v.text, v) := by
  induction vres with
  | nil => cases hv
  | cons w ws ih =>
      rw [List.map_cons] at hnd
      obtain ⟨hnotin, hndrest⟩ := List.nodup_cons.mp hnd
      rcases List.mem_cons.mp hv with rfl | hv2
      · simp [List.find?]
      · have hne : (w.text == v.text) = false := by
          have : w.text ≠ v.text := by
            intro hcontra
            exact hnotin (hcontra ▸
              List.mem_map_of_mem (fun e => e.text) hv2)
          simpa using this
        simp only [List.map_cons, List.find?, hne]
        exact ih hndrest hv2

theorem find_map_score_other (d : List (String × ResultEntry))
    (l : ResultEntry) (t : String) (hne : l.text ≠ t) :
    ((d.map (fun p => if p.1 == l.text then
        (p.1, { p.2 with score := Frac.fmax p.2.score l.score }) else p)).find?
      (fun p => p.1 == t)) = d.find? (fun p => p.1 == t) := by
  induction d with
  | nil => rfl
  | cons q d ih =>
      simp only [List.map_cons, List.find?]
      by_cases hq : (q.1 == t) = true
      · have hqt : q.1 = t := by simpa using hq
        have hql : (q.1 == l.text) = false := by
          have hne2 : q.1 ≠ l.text := by
            rw [hqt]
            intro hcontra
            exact hne hcontra.symm
          simpa using hne2
        simp only [hql, Bool.false_eq_true, if_false]
        rw [hq]
      · have hq' : (q.1 == t) = false := Bool.eq_false_iff.mpr hq
        have hfst : ((if q.1 == l.text then
            (q.1, { q.2 with score := Frac.fmax q.2.score l.score })
            else q) : String × ResultEntry).1 = q.1 := by
          split <;> rfl
        rw [hfst, hq']
        exact ih

theorem find_append_single_other (d : List (String × ResultEntry))
    (l : ResultEntry) (t : String) (hne : l.text ≠ t) :
    ((d ++ [(l.text, l)]).find? (fun p => p.1 == t)) =
      d.find? (fun p => p.1 == t) := by
  induction d with
  | nil =>
      simp only [List.nil_append, List.find?]
      have hlt : (l.text == t) = false := by simpa using hne
      rw [hlt]
  | cons q d ih =>
      simp only [List.cons_append, List.find?]
      by_cases hq : (q.1 == t) = true
      · rw [hq]
      · have hq' : (q.1 == t) = false := Bool.eq_false_iff.mpr hq
        rw [hq']
        exact ih

theorem find_dictMaxScore_other (d : List (String × ResultEntry))
    (l : ResultEntry) (t : String) (hne : l.text ≠ t) :
    (dictMaxScore d l).find? (fun p => p.1 == t) =
      d.find? (fun p => p.1 == t) := by
  unfold dictMaxScore
  split
  · exact find_map_score_other d l t hne
  · exact find_append_single_other d l t hne

theorem find_map_score_hit (d : List (String × ResultEntry))
    (l : ResultEntry) (t : String) (ht : l.text = t) (w : ResultEntry)
    (hw : d.find? (fun p => p.1 == t) = some (t, w)) :
    ((d.map (fun p => if p.1 == l.text then
        (p.1, { p.2 with score := Frac.fmax p.2.score l.score }) else p)).find?
      (fun p => p.1 == t)) =
      some (t, { w with score := Frac.fmax w.score l.score }) := by
  induction d with
  | nil => cases hw
  | cons q d ih =>
      simp only [List.find?] at hw
      by_cases hq : (q.1 == t) = true
      · rw [hq] at hw
        cases hw
        have hql : (((t, w) : String × ResultEntry).1 == l.text) = true := by
          simp [ht]
        simp only [List.map_cons, List.find?, hql, if_true]
        have hqt : (((t, w) : String × ResultEntry).1 == t) = true := by simp
        rw [hqt]
      · have hq' : (q.1 == t) = false := Bool.eq_false_iff.mpr hq
        rw [hq'] at hw
        simp only [List.map_cons, List.find?]
        have hfst : ((if q.1 == l.text then
            (q.1, { q.2 with score := Frac.fmax q.2.score l.score })
            else q) : String × ResultEntry).1 = q.1 := by
          split <;> rfl
        rw [hfst, hq']
        exact ih hw

theorem find_dictMaxScore_hit (d : List (String × ResultEntry))
    (l : ResultEntry) (t : String) (ht : l.text = t) (w : ResultEntry)
    (hw : d.find? (fun p => p.1 == t) = some (t, w)) :
    (dictMaxScore d l).find? (fun p => p.1 == t) =
      some (t, { w with score := Frac.fmax w.score l.score }) := by
  have hany : (d.any (fun p => p.1 == l.text)) = true := by
    have hmem : (t, w) ∈ d := List.mem_of_find?_eq_some hw
    exact List.any_eq_true.mpr ⟨(t, w), hmem, by simp [ht]⟩
  unfold dictMaxScore
  rw [if_pos hany]
  exact find_map_score_hit d l t ht w hw

theorem fmax_absorb (a b : Frac) :
    Frac.fmax (Frac.fmax a b) b = Frac.fmax a b := by
  unfold Frac.fmax
  split
  · simp
  · rfl

theorem find_foldl_dictMaxScore (t : String) (sc : Frac)
    (ls : List ResultEntry) :
    ∀ (d : List (String × ResultEntry)) (w : ResultEntry),
    (∀ x ∈ ls, x.text = t → x.score = sc) →
    d.find? (fun p => p.1 == t) = some (t, w) →
    (ls.foldl dictMaxScore d).find? (fun p => p.1 == t) =
      some (t, if ls.any (fun x => x.text == t)
        then { w with score := Frac.fmax w.score sc } else w) := by
  induction ls with
  | nil =>
      intro d w _ hw
      simpa using hw
  | cons l ls ih =>
      intro d w hsc hw
      rw [List.foldl_cons]
      by_cases hl : l.text = t
      · have hstep := find_dictMaxScore_hit d l t hl w hw
        have hlsc : l.score = sc := hsc l (List.mem_cons_self l ls) hl
        rw [hlsc] at hstep
        have hres := ih (dictMaxScore d l)
          { w with score := Frac.fmax w.score sc }
          (fun x hx hxt => hsc x (List.mem_cons_of_mem l hx) hxt) hstep
        rw [hres]
        have hany : ((l :: ls).any (fun x => x.text == t)) = true := by
          rw [List.any_cons]
          simp [hl]
        rw [hany, if_pos rfl]
        split
        · rw [fmax_absorb]
        · rfl
      · have hw2 : (dictMaxScore d l).find? (fun p => p.1 == t) =
            some (t, w) := by
          rw [find_dictMaxScore_other d l t hl]
          exact hw
        have hres := ih (dictMaxScore d l) w
          (fun x hx hxt => hsc x (List.mem_cons_of_mem l hx) hxt) hw2
        rw [hres]
        have hcond : ((l :: ls).any (fun x => x.text == t)) =
            (ls.any (fun x => x.text == t)) := by
          rw [List.any_cons]
          have hlf : (l.text == t) = false := by simpa using hl
          rw [hlf]
          simp
        rw [hcond]

theorem find_of_mem_nodupKeys (d : List (String × ResultEntry)) (t : String)
    (e : ResultEntry) (hnd : (dictKeys d).Nodup) (hmem : (t, e) ∈ d) :
    d.find? (fun p => p.1 == t) = some (t, e) := by
  induction d with
  | nil => cases hmem
  | cons q d ih =>
      have hnd2 : q.1 ∉ d.map (fun p => p.1) ∧
          (d.map (fun p => p.1)).Nodup := by
        unfold dictKeys at hnd
        rw [List.map_cons] at hnd
        exact List.nodup_cons.mp hnd
      rcases List.mem_cons.mp hmem with rfl | hmem2
      · simp [List.find?]
      · simp only [List.find?]
        have hq : (q.1 == t) = false := by
          have : q.1 ≠ t := by
            intro hcontra
            exact hnd2.1 (hcontra ▸
              List.mem_map_of_mem (fun p => p.1) hmem2)
          simpa using this
        rw [hq]
        exact ih hnd2.2 hmem2

/-! ## Claim C8: sortedness and guard lemmas -/

theorem pairwise_insertBy (le : α → α → Bool)
    (htot : ∀ a b, le a b = true ∨ le b a = true)
    (htrans : ∀ a b c, le a b = true → le b c = true → le a c = true)
    (a : α) (l : List α) (h : l.Pairwise (fun x y => le x y = true)) :
    (insertBy le a l).Pairwise (fun x y => le x y = true) := by
  induction l with
  | nil => simp [insertBy]
  | cons x xs ih =>
      rw [insertBy]
      rw [List.pairwise_cons] at h
      obtain ⟨hx, hxs⟩ := h
      by_cases hc : le a x = true
      · rw [if_pos hc, List.pairwise_cons]
        constructor
        · intro b hb
          rcases List.mem_cons.mp hb with rfl | hb2
          · exact hc
          · exact htrans a x b hc (hx b hb2)
        · rw [List.pairwise_cons]
          exact ⟨hx, hxs⟩
      · rw [if_neg hc, List.pairwise_cons]
        constructor
        · intro b hb
          rcases (mem_insertBy le a b xs).mp hb with hba | hb2
          · rcases htot a x with h1 | h1
            · exact absurd h1 hc
            · rw [hba]
              exact h1
          · exact hx b hb2
        · exact ih hxs

theorem pairwise_sortBy (le : α → α → Bool)
    (htot : ∀ a b, le a b = true ∨ le b a = true)
    (htrans : ∀ a b c, le a b = true → le b c = true → le a c = true)
    (l : List α) :
    (sortBy le l).Pairwise (fun x y => le x y = true) := by
  induction l with
  | nil => simp [sortBy]
  | cons x xs ih =>
      rw [sortBy]
      exact pairwise_insertBy le htot htrans x (sortBy le xs) ih

theorem indexSearch_zero (index : List Vec) (q : Vec) :
    indexSearch index q 0 = [] := by
  unfold indexSearch
  simp [Nat.zero_sub]

theorem vectorStage_of_filtered_nil (embed : String → Vec)
    (s : MemoryModule) (query : String) (topK : Nat) (mtype : Option String)
    (hnil : filteredMems s mtype = []) :
    vectorStage? embed s query topK mtype = some [] := by
  unfold vectorStage?
  rw [hnil]
  simp only [List.length_nil, Nat.min_zero, List.map_nil]
  split
  · rw [indexSearch_zero]
    rfl
  · rw [indexSearch_zero]
    rfl

theorem keywordStage_of_filtered_nil (s : MemoryModule) (query : String)
    (mtype : Option String) (hnil : filteredMems s mtype = []) :
    keywordStage s query mtype = [] := by
  unfold keywordStage
  rw [hnil]
  rfl

/-! ## Claim C8 -/

/-- Claim C8: in hybrid retrieval the merged result set is the union of the
vector-stage and lexical-stage results keyed by text content; a text
present in both stages gets the maximum of its two scores; the lexical
score is the overlap count plus `0.01`; the returned list is the first
`top_k` of the merged results sorted by score descending, and it is indeed
sorted descending.  The per-text score statement assumes the vector-stage
texts are pairwise distinct (text is the merge key, so a duplicated text
has no single per-stage score), and that lexical entries sharing a text
share a score — which holds for every lexical stage, since the lexical
score is a function of the text. -/
theorem claim8_hybrid_merge (embed : String → Vec) (s : MemoryModule)
    (query : String) (topK : Nat) (mtype : Option String)
    (vres lres : List ResultEntry)
    (hv : vectorStage? embed s query topK mtype = some vres)
    (hl : keywordStage s query mtype = lres)
    (hnd : (vres.map (fun e => e.text)).Nodup)
    (hls : ∀ l1 ∈ lres, ∀ l2 ∈ lres, l1.text = l2.text →
      l1.score = l2.score) :
    (∀ x : String,
      x ∈ (mergeByText vres lres).map (fun e => e.text) ↔
        (x ∈ vres.map (fun e => e.text) ∨ x ∈ lres.map (fun e => e.text))) ∧
    (∀ v ∈ vres, ∀ l ∈ lres, v.text = l.text →
      ∀ e ∈ mergeByText vres lres, e.text = v.text →
        e.score = Frac.fmax v.score l.score) ∧
    (∀ l ∈ lres, l.score =
      natToFrac (overlapCount query l.text) + ⟨1, 100, Nat.succ_pos 99⟩) ∧
    retrieveMemory embed s query topK mtype true =
      rankResults (mergeByText vres lres) topK ∧
    (rankResults (mergeByText vres lres) topK).Pairwise
      (fun a b => b.score ≤ a.score) := by
  refine ⟨?_, ?_, ?_, ?_, ?_⟩
  · intro x
    have hkeys := map_text_values_eq_keys (mergeDict vres lres)
      (dictInv_mergeDict vres lres)
    unfold mergeByText
    rw [hkeys]
    unfold mergeDict
    rw [mem_dictKeys_foldl_dictMaxScore, mem_dictKeys_foldl_dictSet]
    simp only [dictKeys, List.map_nil, List.not_mem_nil, false_or]
  · intro v hvv l hll htxt e he hetxt
    have hd0 : vres.foldl (fun d r => dictSet d r.text r) [] =
        vres.map (fun r => (r.text, r)) := by
      have h := foldl_dictSet_of_disjoint vres []
        (by intro r _; rfl) hnd
      simpa using h
    have hfind0 : (vres.foldl (fun d r => dictSet d r.text r) []).find?
        (fun p => p.1 == v.text) = some (v.text, v) := by
      rw [hd0]
      exact find_map_pair vres hnd v hvv
    have hsc : ∀ x ∈ lres, x.text = v.text → x.score = l.score := by
      intro x hx hxt
      exact hls x hx l hll (by rw [hxt, htxt])
    have hany : (lres.any (fun x => x.text == v.text)) = true :=
      List.any_eq_true.mpr ⟨l, hll, by simp [htxt]⟩
    have hfinal := find_foldl_dictMaxScore v.text l.score lres _ v hsc hfind0
    rw [hany, if_pos rfl] at hfinal
    unfold mergeByText at he
    obtain ⟨pr, hpr, hpre⟩ := List.mem_map.mp he
    have hinv := dictInv_mergeDict vres lres pr hpr
    have hpr1 : pr.1 = v.text := by rw [hinv, hpre, hetxt]
    have hpreq : pr = (v.text, e) := by
      cases pr
      simp only at hpre hpr1
      rw [hpre, hpr1]
    have hfind2 : (lres.foldl dictMaxScore
        (vres.foldl (fun d r => dictSet d r.text r) [])).find?
        (fun p => p.1 == v.text) = some (v.text, e) :=
      find_of_mem_nodupKeys (mergeDict vres lres) v.text e
        (nodup_dictKeys_mergeDict vres lres) (hpreq ▸ hpr)
    rw [hfind2] at hfinal
    have hee : e = { v with score := Frac.fmax v.score l.score } :=
      congrArg Prod.snd (Option.some.inj hfinal)
    rw [hee]
  · intro l hll
    rw [← hl] at hll
    unfold keywordStage at hll
    obtain ⟨p, hp, hpe⟩ := List.mem_filterMap.mp hll
    split at hpe
    · cases hpe
      rfl
    · cases hpe
  · rw [retrieveMemory]
    split
    case isTrue h0 =>
      have hnil : filteredMems s mtype = [] := by
        unfold filteredMems
        rw [List.length_eq_zero.mp h0]
        rfl
      rw [vectorStage_of_filtered_nil embed s query topK mtype hnil] at hv
      cases hv
      rw [keywordStage_of_filtered_nil s query mtype hnil] at hl
      cases hl
      simp [rankResults, mergeByText, mergeDict, sortBy]
    case isFalse h0 =>
      split
      case isTrue h1 =>
        have hnil : filteredMems s mtype = [] := List.length_eq_zero.mp h1
        rw [vectorStage_of_filtered_nil embed s query topK mtype hnil] at hv
        cases hv
        rw [keywordStage_of_filtered_nil s query mtype hnil] at hl
        cases hl
        simp [rankResults, mergeByText, mergeDict, sortBy]
      case isFalse h1 =>
        rw [hv]
        simp only [if_true]
        rw [hl]
  · have htot : ∀ a b : ResultEntry,
        scoreGe a b = true ∨ scoreGe b a = true := by
      intro a b
      unfold scoreGe
      rcases Frac.le_total b.score a.score with h | h
      · exact Or.inl (decide_eq_true h)
      · exact Or.inr (decide_eq_true h)
    have htrans : ∀ a b c : ResultEntry, scoreGe a b = true →
        scoreGe b c = true → scoreGe a c = true := by
      intro a b c h1 h2
      unfold scoreGe at *
      exact decide_eq_true
        (Frac.le_trans (of_decide_eq_true h2) (of_decide_eq_true h1))
    have hpw := pairwise_sortBy scoreGe htot htrans (mergeByText vres lres)
    have hpw2 : (rankResults (mergeByText vres lres) topK).Pairwise
        (fun x y => scoreGe x y = true) := by
      unfold rankResults
      exact List.Pairwise.sublist (List.take_sublist _ _) hpw
    exact hpw2.imp (fun h => of_decide_eq_true h)

/-- Witness for C8: the concrete two-record store, query `"aa x"`,
`top_k = 2` — the hybrid retrieval equals the ranked merge of the two
concrete stage outputs. -/
theorem claim8_witness :
    retrieveMemory embedLen sC8 "aa x" 2 none true =
      rankResults (mergeByText vres8 lres8) 2 :=
  (claim8_hybrid_merge embedLen sC8 "aa x" 2 none vres8 lres8
    (by decide) (by decide) (by decide) (by decide)).2.2.2.1

end SIA
